import Mathlib

set_option maxRecDepth 10000

/-!
# Verification of the `memsearch` markdown chunker

Shallow embedding of `src/memsearch/chunker.py` and proofs about it.

Conventions of the embedding:
* Python `str` is modelled as Lean `String`; operations on strings are
  implemented over the underlying `List Char` so that structural induction
  applies directly.
* Python `int` is modelled as `Int` where a value can be negative in the
  source (`max_chunk_size`, `overlap_lines`, line numbers), and as `Nat`
  where the source value is a length or a count.
* `hashlib.sha256(...).hexdigest()` is modelled by an executable SHA-256
  over byte lists (`Nat` values < 256), with UTF-8 encoding of strings.
* Whitespace (`str.strip`, the regex class `\s`) is modelled by the ASCII
  whitespace set; Python additionally treats some further Unicode
  code points as whitespace, which no property here depends on.
-/

namespace MemSearch

/-! ## Byte-level SHA-256 (model of `hashlib.sha256(...).hexdigest()`) -/

/-- Truncate to a 32-bit word. -/
def w32 (n : Nat) : Nat := n % 4294967296

/-- Right rotation of a 32-bit word. -/
def rotr32 (x n : Nat) : Nat := w32 ((x >>> n) ||| (x <<< (32 - n)))

/-- SHA-256 choice function `(x & y) ^ (~x & z)` on 32-bit words. -/
def shaCh (x y z : Nat) : Nat := (x &&& y) ^^^ ((x ^^^ 4294967295) &&& z)

/-- SHA-256 majority function. -/
def shaMaj (x y z : Nat) : Nat := (x &&& y) ^^^ (x &&& z) ^^^ (y &&& z)

def bigSigma0 (x : Nat) : Nat := rotr32 x 2 ^^^ rotr32 x 13 ^^^ rotr32 x 22
def bigSigma1 (x : Nat) : Nat := rotr32 x 6 ^^^ rotr32 x 11 ^^^ rotr32 x 25
def smallSigma0 (x : Nat) : Nat := rotr32 x 7 ^^^ rotr32 x 18 ^^^ (x >>> 3)
def smallSigma1 (x : Nat) : Nat := rotr32 x 17 ^^^ rotr32 x 19 ^^^ (x >>> 10)

/-- The 64 SHA-256 round constants of FIPS 180-4 (the fractional parts of
the cube roots of the first 64 primes), written in decimal. -/
def shaK : List Nat :=
  [1116352408, 1899447441, 3049323471, 3921009573, 961987163,
   1508970993, 2453635748, 2870763221, 3624381080, 310598401,
   607225278, 1426881987, 1925078388, 2162078206, 2614888103,
   3248222580, 3835390401, 4022224774, 264347078, 604807628,
   770255983, 1249150122, 1555081692, 1996064986, 2554220882,
   2821834349, 2952996808, 3210313671, 3336571891, 3584528711,
   113926993, 338241895, 666307205, 773529912, 1294757372,
   1396182291, 1695183700, 1986661051, 2177026350, 2456956037,
   2730485921, 2820302411, 3259730800, 3345764771, 3516065817,
   3600352804, 4094571909, 275423344, 430227734, 506948616,
   659060556, 883997877, 958139571, 1322822218, 1537002063,
   1747873779, 1955562222, 2024104815, 2227730452, 2361852424,
   2428436474, 2756734187, 3204031479, 3329325298]

/-- The SHA-256 initial hash value of FIPS 180-4 (the fractional parts of
the square roots of the first 8 primes), written in decimal. -/
def shaH0 : List Nat :=
  [1779033703, 3144134277, 1013904242, 2773480762,
   1359893119, 2600822924, 528734635, 1541459225]

/-- Group a byte list into big-endian 32-bit words (drops a ragged tail;
the padded message length is always a multiple of 4). -/
def bytesToWords : List Nat → List Nat
  | b0 :: b1 :: b2 :: b3 :: rest =>
      (((b0 * 256 + b1) * 256 + b2) * 256 + b3) :: bytesToWords rest
  | _ => []

/-- Group a word list into blocks of 16 words (the padded message is always
a whole number of blocks, so the trailing accumulator ends empty). -/
def chunk16 (ws : List Nat) : List (List Nat) :=
  (ws.foldl
    (fun (acc : List (List Nat) × List Nat) w =>
      let cur := acc.2 ++ [w]
      if cur.length = 16 then (acc.1 ++ [cur], []) else (acc.1, cur))
    ([], [])).1

/-- One message-schedule extension step: append `w[i]` for `i = ws.length`. -/
def scheduleStep (ws : List Nat) : List Nat :=
  let i := ws.length
  ws ++ [w32 (smallSigma1 (ws.getD (i - 2) 0) + ws.getD (i - 7) 0 +
              smallSigma0 (ws.getD (i - 15) 0) + ws.getD (i - 16) 0)]

/-- Extend a 16-word block to the 64-word message schedule. -/
def fullSchedule (block : List Nat) : List Nat :=
  (List.range 48).foldl (fun ws _ => scheduleStep ws) block

/-- One SHA-256 compression round on state `[a,b,c,d,e,f,g,h]` with a
round constant and schedule word. -/
def roundFn (st : List Nat) (kw : Nat × Nat) : List Nat :=
  match st with
  | [a, b, c, d, e, f, g, h] =>
      let t1 := w32 (h + bigSigma1 e + shaCh e f g + kw.1 + kw.2)
      let t2 := w32 (bigSigma0 a + shaMaj a b c)
      [w32 (t1 + t2), a, b, c, w32 (d + t1), e, f, g]
  | other => other

/-- Compress one 16-word block into the running hash state. -/
def processBlock (h : List Nat) (block : List Nat) : List Nat :=
  let st := (shaK.zip (fullSchedule block)).foldl roundFn h
  (h.zip st).map (fun p => w32 (p.1 + p.2))

/-- SHA-256 of a byte list, as the list of eight 32-bit hash words. -/
def sha256Words (msg : List Nat) : List Nat :=
  let L := msg.length
  let padLen := (119 - L % 64) % 64
  let bitLen := 8 * L
  let lenBytes := (List.range 8).map (fun i => (bitLen >>> (8 * (7 - i))) % 256)
  (chunk16 (bytesToWords (msg ++ [128] ++ List.replicate padLen 0 ++ lenBytes))).foldl
    processBlock shaH0

/-- Lower-case hex digit. -/
def hexDigitChar (n : Nat) : Char :=
  if n < 10 then Char.ofNat (48 + n) else Char.ofNat (87 + n)

/-- Big-endian hex rendering of one 32-bit word (8 hex digits). -/
def wordToHex (w : Nat) : List Char :=
  (List.range 8).map (fun i => hexDigitChar ((w >>> (28 - 4 * i)) % 16))

/-- `hashlib.sha256(msg).hexdigest()`: 64 lower-case hex characters. -/
def sha256hex (msg : List Nat) : String :=
  String.mk ((sha256Words msg).flatMap wordToHex)

/-- UTF-8 encoding of one character. -/
def utf8EncodeChar (c : Char) : List Nat :=
  let n := c.toNat
  if n < 128 then [n]
  else if n < 2048 then [192 + n / 64, 128 + n % 64]
  else if n < 65536 then [224 + n / 4096, 128 + (n / 64) % 64, 128 + n % 64]
  else [240 + n / 262144, 128 + (n / 4096) % 64, 128 + (n / 64) % 64, 128 + n % 64]

/-- `s.encode()`: the UTF-8 bytes of a string. -/
def utf8Bytes (s : String) : List Nat := s.data.flatMap utf8EncodeChar

/-! ## Python string helpers -/

/-- ASCII whitespace (Python's `str.strip` / regex `\s` set, restricted to
ASCII; no property proved here involves non-ASCII whitespace). -/
def isSpaceB (c : Char) : Bool :=
  c = ' ' || c = '\t' || c = '\n' || c = '\r' || c = '\x0b' || c = '\x0c'

/-- Strip leading and trailing whitespace from a character list. -/
def stripChars (l : List Char) : List Char :=
  ((l.dropWhile isSpaceB).reverse.dropWhile isSpaceB).reverse

/-- Python `s.strip()`. -/
def pyStrip (s : String) : String := String.mk (stripChars s.data)

/-- Split a character list at every newline; always returns one more part
than there are newlines. -/
def splitNlChars : List Char → List (List Char)
  | [] => [[]]
  | c :: r =>
    if c = '\n' then [] :: splitNlChars r
    else
      match splitNlChars r with
      | [] => [[c]]
      | h :: t => (c :: h) :: t

/-- Python `text.split("\n")`. -/
def pySplitNl (s : String) : List String := (splitNlChars s.data).map String.mk

/-- Python `"\n".join(lines)`. -/
def joinNl : List String → String
  | [] => ""
  | [s] => s
  | s :: r :: rest => s ++ "\n" ++ joinNl (r :: rest)

/-- Decimal digit character (call sites always pass `n < 10`). -/
def digitChar : Nat → Char
  | 0 => '0' | 1 => '1' | 2 => '2' | 3 => '3' | 4 => '4'
  | 5 => '5' | 6 => '6' | 7 => '7' | 8 => '8' | _ => '9'

/-- Fuel-driven decimal rendering; `pyNatStr` supplies enough fuel. -/
def pyNatStrAux : Nat → Nat → List Char
  | 0, _ => []
  | f + 1, n =>
    if n < 10 then [digitChar n]
    else pyNatStrAux f (n / 10) ++ [digitChar (n % 10)]

/-- Python `str(n)` for `n ≥ 0`: decimal, most significant digit first. -/
def pyNatStr (n : Nat) : String := String.mk (pyNatStrAux (n + 1) n)

/-- Python `str(i)`: decimal, with a leading minus sign for negatives. -/
def pyIntStr (i : Int) : String :=
  if i < 0 then "-" ++ pyNatStr i.natAbs else pyNatStr i.toNat

/-! ## The `Chunk` dataclass -/

/-- `@dataclass(frozen=True) class Chunk`. -/
structure Chunk where
  content : String
  source : String
  heading : String
  heading_level : Nat
  start_line : Int
  end_line : Int
  content_hash : String
deriving DecidableEq, Repr

/-- `hashlib.sha256(content.encode()).hexdigest()[:16]`, the hash that
`Chunk.__post_init__` derives from `content`. -/
def contentHashOf (content : String) : String :=
  (sha256hex (utf8Bytes content)).take 16

/-- `Chunk(...)` with an explicit `content_hash` argument:
`__post_init__` derives the hash from `content` exactly when the supplied
hash is the empty (falsy) string, and keeps it verbatim otherwise. -/
def mkChunkHash (content source heading : String) (heading_level : Nat)
    (start_line end_line : Int) (content_hash : String) : Chunk :=
  { content, source, heading, heading_level, start_line, end_line,
    content_hash :=
      if content_hash = "" then contentHashOf content else content_hash }

/-- `Chunk(...)` without a `content_hash` argument (the dataclass default
`""`), the only form the chunker itself uses. -/
def mkChunk (content source heading : String) (heading_level : Nat)
    (start_line end_line : Int) : Chunk :=
  mkChunkHash content source heading heading_level start_line end_line ""

/-! ## `compute_chunk_id` -/

/-- The f-string
`f"markdown:{source}:{start_line}:{end_line}:{content_hash}:{model}"`. -/
def chunkIdRaw (source : String) (start_line end_line : Int)
    (content_hash model : String) : String :=
  "markdown:" ++ source ++ ":" ++ pyIntStr start_line ++ ":" ++
    pyIntStr end_line ++ ":" ++ content_hash ++ ":" ++ model

/-- `compute_chunk_id(source, start_line, end_line, content_hash, model)`. -/
def compute_chunk_id (source : String) (start_line end_line : Int)
    (content_hash model : String) : String :=
  (sha256hex (utf8Bytes
    (chunkIdRaw source start_line end_line content_hash model))).take 16

/-! ## The segmenter (`chunk_markdown` and `_split_large_section`) -/

/-- Match of `_HEADING_RE = re.compile(r"^(#{1,6})\s+(.+)$")` via
`re.match` against one line (lines contain no newline), returning
`(level, title)` with the title `.strip()`ped as in `chunk_markdown`.

The regex matches iff the line starts with a run of 1–6 `#` characters
not followed by a further `#` (a 7th `#` can be absorbed by neither `\s+`
nor backtracking of `#{1,6}`, since every shorter `#` run is followed by
`#`), followed by at least one whitespace character and then at least one
further character (`.+` needs one; by backtracking it may itself be
whitespace).  When the regex matches, `group(2)` is the rest of the line
after the maximal whitespace run when that rest is nonempty, else the
final whitespace character of the line; in both cases `group(2).strip()`
equals the rest of the line after the `#` run, stripped. -/
def headingMatch (line : String) : Option (Nat × String) :=
  let k := (line.data.takeWhile (fun c => c = '#')).length
  let rest := line.data.drop k
  if 1 ≤ k ∧ k ≤ 6 ∧ 2 ≤ rest.length ∧ isSpaceB (rest.headD '#') then
    some (k, pyStrip (String.mk rest))
  else none

/-- One heading-delimited section: 0-based half-open line span
`[start, stop)` with the governing heading title and level. -/
structure Sect where
  start : Nat
  stop : Nat
  heading : String
  level : Nat
deriving DecidableEq, Repr

/-- The `heading_positions` list: `(line_idx, level, title)` for every
line matching the heading regex. -/
def findHeadings (lines : List String) : List (Nat × Nat × String) :=
  lines.enum.filterMap (fun il =>
    (headingMatch il.2).map (fun kt => (il.1, kt.1, kt.2)))

/-- The per-heading sections: each heading's line through the line before
the next heading (or the end of the document). -/
def headingSections : List (Nat × Nat × String) → Nat → List Sect
  | [], _ => []
  | (i, lv, t) :: rest, n =>
    let nxt := match rest with
      | [] => n
      | (j, _, _) :: _ => j
    ⟨i, nxt, t, lv⟩ :: headingSections rest n

/-- The full `sections` list: a preamble section when there is no heading
or text precedes the first heading, then one section per heading. -/
def buildSections (n : Nat) : List (Nat × Nat × String) → List Sect
  | [] => [⟨0, n, "", 0⟩]
  | (i, lv, t) :: rest =>
    (if 0 < i then [⟨0, i, "", 0⟩] else []) ++
      headingSections ((i, lv, t) :: rest) n

/-- The loop state of `_split_large_section`: emitted chunks, the working
buffer `current_lines`, and `current_start`. -/
structure SplitSt where
  chunks : List Chunk
  cur : List String
  curStart : Int
deriving Repr

/-- One iteration of the `for i, line in enumerate(lines)` loop of
`_split_large_section` (`n` is `len(lines)`). -/
def splitStep (n : Nat) (source heading : String) (heading_level : Nat)
    (base : Nat) (maxSize ov : Int) (i : Nat) (line : String)
    (st : SplitSt) : SplitSt :=
  let cur := st.cur ++ [line]
  let text := joinNl cur
  let isPB := pyStrip line = "" ∧ i + 1 < n
  let isLast := i = n - 1
  if (maxSize ≤ (text.length : Int) ∧ isPB) ∨ isLast then
    let content := pyStrip text
    let chunks :=
      if content = "" then st.chunks
      else st.chunks ++ [mkChunk content source heading heading_level
        ((base : Int) + st.curStart + 1) ((base : Int) + i + 1)]
    let overlapStart : Nat := (max 0 ((cur.length : Int) - ov)).toNat
    let newCur := if isLast then [] else cur.drop overlapStart
    SplitSt.mk chunks newCur ((i : Int) + 1 - newCur.length)
  else
    SplitSt.mk st.chunks cur st.curStart

/-- The whole loop of `_split_large_section`, iterating over the remaining
lines, `i` being the index of the first of them. -/
def splitLoop (n : Nat) (source heading : String) (heading_level : Nat)
    (base : Nat) (maxSize ov : Int) :
    Nat → List String → SplitSt → SplitSt
  | _, [], st => st
  | i, line :: rest, st =>
    splitLoop n source heading heading_level base maxSize ov (i + 1) rest
      (splitStep n source heading heading_level base maxSize ov i line st)

/-- `_split_large_section(lines, source=..., heading=..., heading_level=...,
base_line=..., max_size=..., overlap=...)`. -/
def splitLargeSection (lines : List String) (source heading : String)
    (heading_level : Nat) (base : Nat) (maxSize ov : Int) : List Chunk :=
  (splitLoop lines.length source heading heading_level base maxSize ov
    0 lines (SplitSt.mk [] [] 0)).chunks

/-- Python list slicing `lines[start:stop]` for `0 ≤ start ≤ stop`. -/
def slice (lines : List String) (start stop : Nat) : List String :=
  (lines.drop start).take (stop - start)

/-- The body of the `for start, end, heading, level in sections` loop of
`chunk_markdown`: the chunks contributed by one section. -/
def emitSection (lines : List String) (source : String) (maxSize ov : Int)
    (s : Sect) : List Chunk :=
  let sectionLines := slice lines s.start s.stop
  let sectionText := pyStrip (joinNl sectionLines)
  if sectionText = "" then []
  else if (sectionText.length : Int) ≤ maxSize then
    [mkChunk sectionText source s.heading s.level
      ((s.start : Int) + 1) (s.stop : Int)]
  else
    splitLargeSection sectionLines source s.heading s.level s.start maxSize ov

/-- `chunk_markdown(text, source, max_chunk_size=..., overlap_lines=...)`. -/
def chunk_markdown (text source : String)
    (max_chunk_size overlap_lines : Int) : List Chunk :=
  let lines := pySplitNl text
  (buildSections lines.length (findHeadings lines)).flatMap
    (emitSection lines source max_chunk_size overlap_lines)

/-- The spec's reading of the identifier input: the fields joined with the
delimiter `:` (defined from the spec's words, for comparison with
`chunkIdRaw`, which is defined from the source's f-string). -/
def specJoinColon : List String → String
  | [] => ""
  | [x] => x
  | x :: y :: rest => x ++ ":" ++ specJoinColon (y :: rest)

/-! ## Basic evaluation facts -/

/-- SHA-256 test vector: the digest of the empty message. -/
theorem sha256hex_nil :
    sha256hex (utf8Bytes "") =
      "e3b0c44298fc1c149afbf4c8996fb92427ae41e4649b934ca495991b7852b855" := by
  rfl

/-- SHA-256 test vector: the digest of `"abc"`. -/
theorem sha256hex_abc :
    sha256hex (utf8Bytes "abc") =
      "ba7816bf8f01cfea414140de5dae2223b00361a396177a9cb410ff61f20015ad" := by
  rfl

/-! ## C1: the composite identifier formula -/

/-- C1: `compute_chunk_id` equals the first 16 hex characters of the
SHA-256 digest of the UTF-8 bytes of the string obtained by joining the
tag `"markdown"`, `source`, `start_line`, `end_line`, `content_hash` and
`model` with the delimiter `:`; being a pure function of its arguments it
is in particular deterministic. -/
theorem compute_chunk_id_spec (source : String) (start_line end_line : Int)
    (content_hash model : String) :
    compute_chunk_id source start_line end_line content_hash model =
      (sha256hex (utf8Bytes (specJoinColon
        ["markdown", source, pyIntStr start_line, pyIntStr end_line,
         content_hash, model]))).take 16 := by
  have h : chunkIdRaw source start_line end_line content_hash model =
      specJoinColon ["markdown", source, pyIntStr start_line,
        pyIntStr end_line, content_hash, model] := by
    simp only [chunkIdRaw, specJoinColon, String.append_assoc]
    rfl
  rw [compute_chunk_id, h]

/-! ## C9: the empty document -/

/-- C9: `chunk_markdown` on the empty string returns the empty chunk list
(for every source label and every parameter pair, valid or not). -/
theorem chunk_markdown_empty (source : String)
    (max_chunk_size overlap_lines : Int) :
    chunk_markdown "" source max_chunk_size overlap_lines = [] := rfl

/-! ## C10: explicitly supplied hashes are kept -/

/-- C10: constructing a `Chunk` with an explicit non-empty `content_hash`
keeps that value verbatim, and the SHA-256 derivation from `content` runs
exactly when the supplied hash is empty. -/
theorem chunk_explicit_hash_kept (content source heading : String)
    (heading_level : Nat) (start_line end_line : Int) (content_hash : String)
    (hne : content_hash ≠ "") :
    (mkChunkHash content source heading heading_level start_line end_line
        content_hash).content_hash = content_hash ∧
    (mkChunkHash content source heading heading_level start_line end_line
        "").content_hash = contentHashOf content := by
  constructor
  · simp [mkChunkHash, hne]
  · simp [mkChunkHash]

/-- Witness for C10 at a concrete chunk. -/
theorem chunk_explicit_hash_kept_witness :
    (mkChunkHash "abc" "s.md" "t" 1 1 2 "deadbeef").content_hash =
        "deadbeef" ∧
    (mkChunkHash "abc" "s.md" "t" 1 1 2 "").content_hash =
        contentHashOf "abc" :=
  chunk_explicit_hash_kept "abc" "s.md" "t" 1 1 2 "deadbeef" (by decide)

/-! ## Counterexamples -/

/-- C3 counterexample: with `max_chunk_size = 5`, the three-line document
`"ab\ncd\nef"` (one section, no blank line, every line of length 2) is
emitted as a single chunk of trimmed length 8 > 5 that consists of three
lines — the size bound is violated by a chunk that is not a single
over-long line. -/
theorem size_bound_violated :
    ∃ c ∈ chunk_markdown "ab\ncd\nef" "" 5 2,
      5 < (c.content.length : Int) ∧ '\n' ∈ c.content.data := by
  refine ⟨mkChunk "ab\ncd\nef" "" "" 0 1 3, ?_, by decide, by decide⟩
  show mkChunk "ab\ncd\nef" "" "" 0 1 3 ∈ [mkChunk "ab\ncd\nef" "" "" 0 1 3]
  exact List.mem_singleton_self _

/-- C4 counterexample: a non-positive `max_chunk_size` is not rejected:
`chunk_markdown("hi", max_chunk_size=0)` runs to completion and silently
produces a chunk. -/
theorem no_rejection_of_nonpositive_max :
    chunk_markdown "hi" "" 0 2 = [mkChunk "hi" "" "" 0 1 1] := rfl

/-- C5 counterexample: the line `"#  "` (hash, space, space) matches the
heading regex with a whitespace-only title, which strips to the empty
string, so the document `"#  \nbody"` yields a chunk with
`heading_level = 1` yet `heading = ""`. -/
theorem heading_level_heading_mismatch :
    ∃ c ∈ chunk_markdown "#  \nbody" "" 1500 2,
      c.heading = "" ∧ c.heading_level ≠ 0 := by
  refine ⟨mkChunk "#  \nbody" "" "" 1 1 2, ?_, rfl, by decide⟩
  show mkChunk "#  \nbody" "" "" 1 1 2 ∈ [mkChunk "#  \nbody" "" "" 1 1 2]
  exact List.mem_singleton_self _

/-- C6 counterexample: on `"aaaa\n\nbb"` with `max_chunk_size = 5` and
`overlap_lines = 2` the splitter emits chunks with line ranges `[1, 2]`
and `[1, 3]`; the non-blank first line lies in the declared range of two
distinct emitted chunks, refuting the "exactly one" coverage claim. -/
theorem line_covered_twice :
    pyStrip ((pySplitNl "aaaa\n\nbb").getD 0 "") ≠ "" ∧
    (chunk_markdown "aaaa\n\nbb" "" 5 2).countP
      (fun c => decide (c.start_line ≤ 1 ∧ (1 : Int) ≤ c.end_line)) = 2 := by
  constructor
  · decide
  · rfl

/-- C7 counterexample: two distinct argument tuples for `compute_chunk_id`
that yield the same identifier, because the `:` delimiter occurring inside
a field makes the two joined raw strings coincide. -/
theorem chunk_id_collision :
    compute_chunk_id "a:1" 2 3 "h" "m" =
        compute_chunk_id "a" 1 2 "3:h" "m" ∧
    ("a:1", (2 : Int), (3 : Int), "h", "m") ≠
        ("a", (1 : Int), (2 : Int), "3:h", "m") := by
  constructor
  · rfl
  · decide

/-! ## A generic loop invariant for the splitter -/

/-- Any property of the loop state preserved by `splitStep` holds of the
final state of `splitLoop`. -/
theorem splitLoop_inv (n : Nat) (src hd : String) (lv : Nat) (base : Nat)
    (mS ov : Int) (Inv : Nat → SplitSt → Prop)
    (step : ∀ i line st, Inv i st →
      Inv (i + 1) (splitStep n src hd lv base mS ov i line st)) :
    ∀ rest i st, Inv i st →
      Inv (i + rest.length) (splitLoop n src hd lv base mS ov i rest st) := by
  intro rest
  induction rest with
  | nil => intro i st h; simpa [splitLoop] using h
  | cons line rest ih =>
    intro i st h
    have h2 := ih (i + 1) (splitStep n src hd lv base mS ov i line st)
      (step i line st h)
    have e : i + (line :: rest).length = i + 1 + rest.length := by
      simp only [List.length_cons]; omega
    rw [e]
    exact h2

/-! ## C2: content hashes are derived from content alone -/

/-- The chunker's own constructor always stores the derived hash. -/
theorem mkChunk_hash (content source heading : String) (lv : Nat)
    (a b : Int) :
    (mkChunk content source heading lv a b).content_hash =
      contentHashOf (mkChunk content source heading lv a b).content := by
  simp [mkChunk, mkChunkHash]

/-- `splitStep` preserves "every emitted chunk carries the derived hash". -/
theorem splitStep_hash (n : Nat) (src hd : String) (lv : Nat) (base : Nat)
    (mS ov : Int) (i : Nat) (line : String) (st : SplitSt)
    (h : ∀ c ∈ st.chunks, c.content_hash = contentHashOf c.content) :
    ∀ c ∈ (splitStep n src hd lv base mS ov i line st).chunks,
      c.content_hash = contentHashOf c.content := by
  intro c hc
  simp only [splitStep] at hc
  split at hc
  · simp only at hc
    split at hc
    · exact h c hc
    · rcases List.mem_append.mp hc with h1 | h1
      · exact h c h1
      · rcases List.mem_singleton.mp h1 with rfl
        exact mkChunk_hash _ _ _ _ _ _
  · exact h c hc

/-- Every chunk emitted by `_split_large_section` carries the derived
hash. -/
theorem splitLargeSection_hash (lines : List String) (src hd : String)
    (lv : Nat) (base : Nat) (mS ov : Int) :
    ∀ c ∈ splitLargeSection lines src hd lv base mS ov,
      c.content_hash = contentHashOf c.content := by
  have := splitLoop_inv lines.length src hd lv base mS ov
    (fun _ st => ∀ c ∈ st.chunks, c.content_hash = contentHashOf c.content)
    (fun i line st h => splitStep_hash _ _ _ _ _ _ _ i line st h)
    lines 0 (SplitSt.mk [] [] 0) (by simp)
  exact this

/-- Every chunk emitted for one section carries the derived hash. -/
theorem emitSection_hash (lines : List String) (src : String) (mS ov : Int)
    (s : Sect) :
    ∀ c ∈ emitSection lines src mS ov s,
      c.content_hash = contentHashOf c.content := by
  intro c hc
  simp only [emitSection] at hc
  split at hc
  · simp at hc
  · split at hc
    · rcases List.mem_singleton.mp hc with rfl
      exact mkChunk_hash _ _ _ _ _ _
    · exact splitLargeSection_hash _ _ _ _ _ _ _ c hc

/-- C2: every chunk produced by `chunk_markdown` carries as `content_hash`
the first 16 hexadecimal characters of the SHA-256 digest of the UTF-8
bytes of its `content` field alone; hence two chunks with byte-identical
content have identical hashes regardless of source, line range or
heading. -/
theorem chunk_content_hash_from_content (text source : String)
    (max_chunk_size overlap_lines : Int) (c : Chunk)
    (hc : c ∈ chunk_markdown text source max_chunk_size overlap_lines) :
    c.content_hash = (sha256hex (utf8Bytes c.content)).take 16 := by
  simp only [chunk_markdown, List.mem_flatMap] at hc
  obtain ⟨s, _, hcs⟩ := hc
  exact emitSection_hash _ _ _ _ _ c hcs

/-- Witness for C2 at a concrete document. -/
theorem chunk_content_hash_from_content_witness :
    mkChunk "hi" "" "" 0 1 1 ∈ chunk_markdown "hi" "" 1500 2 ∧
    (mkChunk "hi" "" "" 0 1 1).content_hash =
      (sha256hex (utf8Bytes (mkChunk "hi" "" "" 0 1 1).content)).take 16 := by
  have hm : mkChunk "hi" "" "" 0 1 1 ∈ chunk_markdown "hi" "" 1500 2 := by
    show mkChunk "hi" "" "" 0 1 1 ∈ [mkChunk "hi" "" "" 0 1 1]
    exact List.mem_singleton_self _
  exact ⟨hm, chunk_content_hash_from_content "hi" "" 1500 2 _ hm⟩

/-! ## C4 amended: no validation of `max_chunk_size` -/

/-- C4 amended: `chunk_markdown` performs no configuration validation at
all; for every non-positive `max_chunk_size` (and any `overlap_lines`) it
still runs to completion and silently produces chunks — here, on the
one-line document `"hi"`, exactly one chunk, independently of the
parameter values.  Rejection of non-positive sizes is at most a caller
precondition, never enforced by the code. -/
theorem chunk_markdown_accepts_nonpositive_max (m ov : Int) (hm : m ≤ 0) :
    chunk_markdown "hi" "" m ov = [mkChunk "hi" "" "" 0 1 1] := by
  have h3 : pyStrip "hi" = "hi" := rfl
  have h4 : ("hi" : String).length = 2 := rfl
  have h2 : ¬((("hi" : String).length : Int) ≤ m) := by rw [h4]; omega
  simp [chunk_markdown, findHeadings, buildSections, emitSection, h2, h3,
    splitLargeSection, splitLoop, splitStep, pySplitNl, splitNlChars,
    headingMatch, slice, joinNl]

/-- Witness for the amended C4 at `max_chunk_size = 0`. -/
theorem chunk_markdown_accepts_nonpositive_max_witness :
    chunk_markdown "hi" "" 0 2 = [mkChunk "hi" "" "" 0 1 1] :=
  chunk_markdown_accepts_nonpositive_max 0 2 (by decide)

/-! ## C7 amended: injectivity of the pre-hash identifier string -/

/-- The digit characters all lie in the ASCII range 48–57. -/
theorem digitChar_range (n : Nat) :
    48 ≤ (digitChar n).toNat ∧ (digitChar n).toNat ≤ 57 := by
  unfold digitChar
  split <;> decide

/-- For an actual digit value the character codes it exactly. -/
theorem digitChar_toNat : ∀ n < 10, (digitChar n).toNat = 48 + n := by decide

/-- Decimal parsing, the left inverse of `pyNatStrAux`. -/
def parseDigits (l : List Char) : Nat :=
  l.foldl (fun a c => 10 * a + (c.toNat - 48)) 0

theorem parseDigits_append_one (l : List Char) (c : Char) :
    parseDigits (l ++ [c]) = 10 * parseDigits l + (c.toNat - 48) := by
  simp [parseDigits, List.foldl_append]

/-- With sufficient fuel, parsing undoes decimal rendering. -/
theorem parse_pyNatStrAux : ∀ f n, n < f →
    parseDigits (pyNatStrAux f n) = n := by
  intro f
  induction f with
  | zero => intro n h; omega
  | succ f ih =>
    intro n h
    by_cases h10 : n < 10
    · have hd := digitChar_toNat n h10
      simp [pyNatStrAux, h10, parseDigits, hd]
    · have hdiv : n / 10 < f := by
        have h1 : n / 10 < n := Nat.div_lt_self (by omega) (by omega)
        omega
      simp only [pyNatStrAux, if_neg h10, parseDigits_append_one, ih _ hdiv]
      have := digitChar_toNat (n % 10) (Nat.mod_lt _ (by omega))
      omega

/-- Decimal rendering of naturals is injective. -/
theorem pyNatStr_inj (a b : Nat) (h : pyNatStr a = pyNatStr b) : a = b := by
  have h2 : pyNatStrAux (a + 1) a = pyNatStrAux (b + 1) b := by
    simpa [pyNatStr] using congrArg String.data h
  have ha := parse_pyNatStrAux (a + 1) a (by omega)
  have hb := parse_pyNatStrAux (b + 1) b (by omega)
  rw [← ha, ← hb, h2]

/-- Every character of a rendered natural is a decimal digit. -/
theorem pyNatStrAux_digits : ∀ f n, ∀ c ∈ pyNatStrAux f n,
    48 ≤ c.toNat ∧ c.toNat ≤ 57 := by
  intro f
  induction f with
  | zero => intro n c hc; simp [pyNatStrAux] at hc
  | succ f ih =>
    intro n c hc
    by_cases h10 : n < 10
    · simp [pyNatStrAux, h10] at hc
      subst hc
      exact digitChar_range n
    · simp only [pyNatStrAux, if_neg h10, List.mem_append,
        List.mem_singleton] at hc
      rcases hc with hc | hc
      · exact ih _ c hc
      · subst hc
        exact digitChar_range _

/-- A rendered natural is never the empty character list. -/
theorem pyNatStrAux_ne_nil (f n : Nat) (hf : 0 < f) :
    pyNatStrAux f n ≠ [] := by
  cases f with
  | zero => omega
  | succ f =>
    by_cases h10 : n < 10 <;> simp [pyNatStrAux, h10]

/-- Python decimal rendering of integers is injective. -/
theorem pyIntStr_inj (i j : Int) (h : pyIntStr i = pyIntStr j) : i = j := by
  have hdata := congrArg String.data h
  by_cases hi : i < 0 <;> by_cases hj : j < 0
  · simp only [pyIntStr, if_pos hi, if_pos hj] at hdata
    simp [pyNatStr] at hdata
    have := pyNatStr_inj i.natAbs j.natAbs
      (by simpa [pyNatStr] using congrArg String.mk hdata)
    omega
  · exfalso
    simp only [pyIntStr, if_pos hi, if_neg hj] at hdata
    simp [pyNatStr] at hdata
    rcases he : pyNatStrAux (j.toNat + 1) j.toNat with _ | ⟨c, t⟩
    · exact pyNatStrAux_ne_nil _ _ (by omega) he
    · rw [he] at hdata
      have hc : c ∈ pyNatStrAux (j.toNat + 1) j.toNat := by rw [he]; simp
      have := pyNatStrAux_digits _ _ c hc
      have hc45 : ('-' : Char) = c := List.head_eq_of_cons_eq hdata
      have hv : c.toNat = 45 := by rw [← hc45]; rfl
      omega
  · exfalso
    simp only [pyIntStr, if_pos hj, if_neg hi] at hdata
    simp [pyNatStr] at hdata
    rcases he : pyNatStrAux (i.toNat + 1) i.toNat with _ | ⟨c, t⟩
    · exact pyNatStrAux_ne_nil _ _ (by omega) he
    · rw [he] at hdata
      have hc : c ∈ pyNatStrAux (i.toNat + 1) i.toNat := by rw [he]; simp
      have := pyNatStrAux_digits _ _ c hc
      have hc45 : c = ('-' : Char) := List.head_eq_of_cons_eq hdata
      have hv : c.toNat = 45 := by rw [hc45]; rfl
      omega
  · simp only [pyIntStr, if_neg hi, if_neg hj] at hdata
    have := pyNatStr_inj i.toNat j.toNat (by
      simpa [pyNatStr] using congrArg String.mk
        (by simpa [pyNatStr] using hdata))
    omega

/-- A rendered integer never contains the `:` delimiter. -/
theorem colon_not_mem_pyIntStr (i : Int) : ':' ∉ (pyIntStr i).data := by
  intro hmem
  have h58 : (':' : Char).toNat = 58 := rfl
  by_cases hi : i < 0
  · simp only [pyIntStr, if_pos hi, String.data_append] at hmem
    rcases List.mem_append.mp hmem with h | h
    · simp at h
    · have := pyNatStrAux_digits _ _ _ (by simpa [pyNatStr] using h)
      omega
  · simp only [pyIntStr, if_neg hi] at hmem
    have := pyNatStrAux_digits _ _ _ (by simpa [pyNatStr] using hmem)
    omega

/-- Peeling one delimiter-free field off a `:`-joined character list. -/
theorem colon_append_inj : ∀ (xs ys t₁ t₂ : List Char),
    ':' ∉ xs → ':' ∉ ys →
    xs ++ ':' :: t₁ = ys ++ ':' :: t₂ → xs = ys ∧ t₁ = t₂ := by
  intro xs
  induction xs with
  | nil =>
    intro ys t₁ t₂ _ hy h
    cases ys with
    | nil => simpa using h
    | cons y ys =>
      exfalso
      simp only [List.nil_append, List.cons_append, List.cons.injEq] at h
      exact hy (h.1 ▸ List.mem_cons_self y ys)
  | cons x xs ih =>
    intro ys t₁ t₂ hx hy h
    cases ys with
    | nil =>
      exfalso
      simp only [List.nil_append, List.cons_append, List.cons.injEq] at h
      exact hx (h.1 ▸ List.mem_cons_self x xs)
    | cons y ys =>
      simp only [List.cons_append, List.cons.injEq] at h
      have := ih ys t₁ t₂ (fun hm => hx (List.mem_cons_of_mem _ hm))
        (fun hm => hy (List.mem_cons_of_mem _ hm)) h.2
      exact ⟨by simp [h.1, this.1], this.2⟩

/-- C7 amended: distinct argument tuples can collide (see
`chunk_id_collision`), but only through delimiter injection: whenever
`source` and `content_hash` contain no `:` character, the pre-hash string
`chunkIdRaw` — the exact string `compute_chunk_id` hashes — determines
every argument, so distinct tuples always hash distinct strings and the
identifiers differ unless the truncated SHA-256 digest itself collides. -/
theorem chunkIdRaw_inj (s₁ s₂ : String) (a₁ a₂ b₁ b₂ : Int)
    (h₁ h₂ m₁ m₂ : String)
    (hs₁ : ':' ∉ s₁.data) (hs₂ : ':' ∉ s₂.data)
    (hh₁ : ':' ∉ h₁.data) (hh₂ : ':' ∉ h₂.data)
    (heq : chunkIdRaw s₁ a₁ b₁ h₁ m₁ = chunkIdRaw s₂ a₂ b₂ h₂ m₂) :
    s₁ = s₂ ∧ a₁ = a₂ ∧ b₁ = b₂ ∧ h₁ = h₂ ∧ m₁ = m₂ := by
  have hmd : ("markdown:" : String).data =
    ['m', 'a', 'r', 'k', 'd', 'o', 'w', 'n', ':'] := rfl
  have hcol : (":" : String).data = [':'] := rfl
  have hd := congrArg String.data heq
  simp [chunkIdRaw, String.data_append, hmd, hcol, List.append_assoc] at hd
  obtain ⟨hds, hd⟩ := colon_append_inj _ _ _ _ hs₁ hs₂ hd
  obtain ⟨hda, hd⟩ := colon_append_inj _ _ _ _ (colon_not_mem_pyIntStr a₁)
    (colon_not_mem_pyIntStr a₂) hd
  obtain ⟨hdb, hd⟩ := colon_append_inj _ _ _ _ (colon_not_mem_pyIntStr b₁)
    (colon_not_mem_pyIntStr b₂) hd
  obtain ⟨hdh, hdm⟩ := colon_append_inj _ _ _ _ hh₁ hh₂ hd
  exact ⟨String.ext hds,
    pyIntStr_inj _ _ (String.ext hda),
    pyIntStr_inj _ _ (String.ext hdb),
    String.ext hdh, String.ext hdm⟩

/-- Witness for the amended C7 at concrete arguments. -/
theorem chunkIdRaw_inj_witness :
    "a" = "a" ∧ (7 : Int) = 7 ∧ (9 : Int) = 9 ∧ "hh" = "hh" ∧ "mm" = "mm" :=
  chunkIdRaw_inj "a" "a" 7 7 9 9 "hh" "hh" "mm" "mm"
    (by decide) (by decide) (by decide) (by decide) rfl


/-- A successful heading match has level between 1 and 6. -/
theorem headingMatch_some_level (line : String) (k : Nat) (t : String)
    (h : headingMatch line = some (k, t)) : 1 ≤ k ∧ k ≤ 6 := by
  simp only [headingMatch] at h
  split at h
  · rename_i hc
    simp only [Option.some.injEq, Prod.mk.injEq] at h
    omega
  · exact absurd h (by simp)

/-- Every recorded heading position is a valid line index whose line
matches the heading regex with the recorded level and title. -/
theorem findHeadings_mem (lines : List String) (p : Nat × Nat × String)
    (hp : p ∈ findHeadings lines) :
    p.1 < lines.length ∧
    headingMatch (lines.getD p.1 "") = some (p.2.1, p.2.2) ∧
    1 ≤ p.2.1 := by
  simp only [findHeadings, List.mem_filterMap] at hp
  obtain ⟨⟨i, line⟩, hmem, hf⟩ := hp
  have hget := List.mem_enum_iff_getElem?.mp hmem
  rcases hm : headingMatch line with _ | ⟨k, t⟩ <;> rw [hm] at hf
  · simp at hf
  · simp only [Option.map_some', Option.some.injEq] at hf
    obtain ⟨hlt, hidx⟩ := List.getElem?_eq_some.mp hget
    have hgd : lines.getD i "" = line := by
      rw [List.getD_eq_getElem?_getD, hget]
      rfl
    subst hf
    refine ⟨hlt, ?_, (headingMatch_some_level line k t hm).1⟩
    rw [hgd]
    exact hm

/-- Heading positions are strictly increasing. -/
theorem findHeadings_chain (lines : List String) :
    List.Chain' (fun p q : Nat × Nat × String => p.1 < q.1)
      (findHeadings lines) := by
  have h0 : List.Pairwise (fun p q : Nat × String => p.1 < q.1) lines.enum := by
    have h1 := List.pairwise_lt_range lines.length
    rw [← List.enum_map_fst lines] at h1
    exact List.pairwise_map.mp h1
  refine List.Pairwise.chain' ?_
  refine List.Pairwise.filterMap _ ?_ h0
  intro a b hab x hx y hy
  rcases ha : headingMatch a.2 with _ | ⟨k, t⟩ <;> rw [ha] at hx
  · simp at hx
  · rcases hb : headingMatch b.2 with _ | ⟨k2, t2⟩ <;> rw [hb] at hy
    · simp at hy
    · simp only [Option.map_some', Option.mem_def, Option.some.injEq] at hx hy
      subst hx; subst hy
      exact hab



/-- Splitting never yields an empty list of parts. -/
theorem splitNlChars_ne_nil : ∀ l : List Char, splitNlChars l ≠ [] := by
  intro l
  induction l with
  | nil => simp [splitNlChars]
  | cons c r ih =>
    simp only [splitNlChars]
    split
    · simp
    · rcases h : splitNlChars r with _ | ⟨h2, t⟩ <;> simp

/-- A document always has at least one line. -/
theorem pySplitNl_length_pos (s : String) : 0 < (pySplitNl s).length := by
  rcases h : splitNlChars s.data with _ | ⟨h2, t⟩
  · exact absurd h (splitNlChars_ne_nil _)
  · simp [pySplitNl, h]

/-- The per-section wellformedness facts used by the global theorems. -/
def SectOK (lines : List String) (s : Sect) : Prop :=
  s.start < s.stop ∧ s.stop ≤ lines.length ∧
  (s.level = 0 → s.heading = "") ∧
  (s.stop = lines.length ∨ (headingMatch (lines.getD s.stop "")).isSome)

/-- Wellformedness of every per-heading section. -/
theorem headingSections_mem (lines : List String) :
    ∀ (hps : List (Nat × Nat × String)),
    (∀ p ∈ hps, p.1 < lines.length ∧
      headingMatch (lines.getD p.1 "") = some (p.2.1, p.2.2) ∧ 1 ≤ p.2.1) →
    List.Chain' (fun p q : Nat × Nat × String => p.1 < q.1) hps →
    ∀ s ∈ headingSections hps lines.length,
      s.start < s.stop ∧ s.stop ≤ lines.length ∧ 1 ≤ s.level ∧
      (s.stop = lines.length ∨ (headingMatch (lines.getD s.stop "")).isSome) := by
  intro hps
  induction hps with
  | nil => intro _ _ s hs; simp [headingSections] at hs
  | cons p rest ih =>
    intro hall hch s hs
    obtain ⟨i, lv, t⟩ := p
    cases rest with
    | nil =>
      simp only [headingSections, List.mem_singleton] at hs
      subst hs
      have h1 := hall (i, lv, t) (by simp)
      exact ⟨h1.1, le_refl _, h1.2.2, Or.inl rfl⟩
    | cons q rest2 =>
      obtain ⟨j, lv2, t2⟩ := q
      simp only [headingSections] at hs
      rcases List.mem_cons.mp hs with hs | hs
      · subst hs
        have h1 := hall (i, lv, t) (by simp)
        have h2 := hall (j, lv2, t2) (by simp)
        have hij : i < j := (List.chain'_cons.mp hch).1
        refine ⟨hij, le_of_lt h2.1, h1.2.2, Or.inr ?_⟩
        have hm := h2.2.1
        simp only at hm
        show (headingMatch (lines.getD j "")).isSome = true
        rw [hm]
        rfl
      · exact ih (fun p hp => hall p (List.mem_cons_of_mem _ hp))
          (List.chain'_cons.mp hch).2 s hs

/-- The first per-heading section starts at the first heading's line. -/
theorem headingSections_head (p : Nat × Nat × String)
    (rest : List (Nat × Nat × String)) (n : Nat) :
    ∃ tl, headingSections (p :: rest) n =
      Sect.mk p.1 (match rest with | [] => n | q :: _ => q.1) p.2.2 p.2.1
        :: tl := by
  obtain ⟨i, lv, t⟩ := p
  cases rest <;> exact ⟨_, rfl⟩

/-- Per-heading sections are contiguous: each stops where the next
starts. -/
theorem headingSections_chain :
    ∀ (hps : List (Nat × Nat × String)) (n : Nat),
    List.Chain' (fun a b : Sect => a.stop = b.start) (headingSections hps n) := by
  intro hps
  induction hps with
  | nil => intro n; simp [headingSections]
  | cons p rest ih =>
    intro n
    cases rest with
    | nil => obtain ⟨i, lv, t⟩ := p; simp [headingSections]
    | cons q rest2 =>
      obtain ⟨tl, htl⟩ := headingSections_head q rest2 n
      have hcons : headingSections (p :: q :: rest2) n =
          Sect.mk p.1 q.1 p.2.2 p.2.1 :: headingSections (q :: rest2) n := by
        obtain ⟨i, lv, t⟩ := p
        obtain ⟨j, l2, t2⟩ := q
        rfl
      rw [hcons, htl]
      exact List.Chain'.cons rfl (htl ▸ ih n)

/-- Coverage of `[head, n)` by the per-heading sections. -/
theorem headingSections_cover :
    ∀ (rest : List (Nat × Nat × String)) (p : Nat × Nat × String) (n j : Nat),
    (∀ q ∈ p :: rest, q.1 < n) → p.1 ≤ j → j < n →
    ∃ s ∈ headingSections (p :: rest) n, s.start ≤ j ∧ j < s.stop := by
  intro rest
  induction rest with
  | nil =>
    intro p n j _ hpj hjn
    obtain ⟨i, lv, t⟩ := p
    exact ⟨Sect.mk i n t lv, by simp [headingSections], hpj, hjn⟩
  | cons q rest2 ih =>
    intro p n j hall hpj hjn
    obtain ⟨i, lv, t⟩ := p
    obtain ⟨j2, l2, t2⟩ := q
    by_cases hlt : j < j2
    · exact ⟨Sect.mk i j2 t lv, by simp [headingSections], hpj, hlt⟩
    · obtain ⟨s, hmem, hcov⟩ := ih (j2, l2, t2) n j
        (fun q hq => hall q (List.mem_cons_of_mem _ hq)) (by omega) hjn
      refine ⟨s, ?_, hcov⟩
      have : headingSections ((i, lv, t) :: (j2, l2, t2) :: rest2) n =
          Sect.mk i j2 t lv :: headingSections ((j2, l2, t2) :: rest2) n := rfl
      rw [this]
      exact List.mem_cons_of_mem _ hmem



/-- Wellformedness of every section of a document. -/
theorem buildSections_sectOK (lines : List String) (hn : 0 < lines.length) :
    ∀ s ∈ buildSections lines.length (findHeadings lines), SectOK lines s := by
  intro s hs
  have hall : ∀ p ∈ findHeadings lines, p.1 < lines.length ∧
      headingMatch (lines.getD p.1 "") = some (p.2.1, p.2.2) ∧ 1 ≤ p.2.1 :=
    fun p hp => findHeadings_mem lines p hp
  have hch := findHeadings_chain lines
  rcases hh : findHeadings lines with _ | ⟨⟨i, lv, t⟩, rest⟩ <;>
    rw [hh] at hs hall hch
  · simp only [buildSections, List.mem_singleton] at hs
    subst hs
    exact ⟨hn, le_refl _, fun _ => rfl, Or.inl rfl⟩
  · simp only [buildSections, List.mem_append] at hs
    rcases hs with hs | hs
    · by_cases h0 : 0 < i
      · rw [if_pos h0] at hs
        simp only [List.mem_singleton] at hs
        subst hs
        have h1 := hall (i, lv, t) (by simp)
        refine ⟨h0, le_of_lt h1.1, fun _ => rfl, Or.inr ?_⟩
        have hm := h1.2.1
        simp only at hm
        show (headingMatch (lines.getD i "")).isSome = true
        rw [hm]
        rfl
      · rw [if_neg h0] at hs
        simp at hs
    · have h := headingSections_mem lines ((i, lv, t) :: rest) hall hch s hs
      exact ⟨h.1, h.2.1, fun h0 => absurd h0 (by omega), h.2.2.2⟩

/-- The sections are contiguous: each stops where the next starts. -/
theorem buildSections_chain (lines : List String) :
    List.Chain' (fun a b : Sect => a.stop = b.start)
      (buildSections lines.length (findHeadings lines)) := by
  rcases hh : findHeadings lines with _ | ⟨⟨i, lv, t⟩, rest⟩
  · simp [buildSections]
  · simp only [buildSections]
    by_cases h0 : 0 < i
    · rw [if_pos h0]
      obtain ⟨tl, htl⟩ := headingSections_head (i, lv, t) rest lines.length
      rw [htl, List.singleton_append]
      exact List.Chain'.cons rfl (htl ▸ headingSections_chain _ _)
    · rw [if_neg h0, List.nil_append]
      exact headingSections_chain _ _

/-- Every line index of the document lies in some section's span. -/
theorem buildSections_cover (lines : List String) :
    ∀ j < lines.length, ∃ s ∈ buildSections lines.length (findHeadings lines),
      s.start ≤ j ∧ j < s.stop := by
  intro j hj
  have hall : ∀ p ∈ findHeadings lines, p.1 < lines.length ∧
      headingMatch (lines.getD p.1 "") = some (p.2.1, p.2.2) ∧ 1 ≤ p.2.1 :=
    fun p hp => findHeadings_mem lines p hp
  rcases hh : findHeadings lines with _ | ⟨⟨i, lv, t⟩, rest⟩ <;> rw [hh] at hall
  · exact ⟨Sect.mk 0 lines.length "" 0, by simp [buildSections],
      Nat.zero_le _, hj⟩
  · by_cases hlt : j < i
    · have h0 : 0 < i := by omega
      refine ⟨Sect.mk 0 i "" 0, ?_, Nat.zero_le _, hlt⟩
      simp [buildSections, if_pos h0]
    · obtain ⟨s, hm, hc⟩ := headingSections_cover rest (i, lv, t)
        lines.length j (fun q hq => (hall q hq).1) (by omega) hj
      refine ⟨s, ?_, hc⟩
      simp only [buildSections, List.mem_append]
      exact Or.inr hm



/-- A string strips to empty iff all its characters are whitespace. -/
theorem pyStrip_eq_empty_iff (s : String) :
    pyStrip s = "" ↔ ∀ c ∈ s.data, isSpaceB c := by
  have hmk : (pyStrip s = "") ↔ stripChars s.data = [] := by
    constructor
    · intro h
      have := congrArg String.data h
      simpa [pyStrip] using this
    · intro h
      simp [pyStrip, h]
  rw [hmk]
  unfold stripChars
  constructor
  · intro h c hc
    have h2 : (s.data.dropWhile isSpaceB).reverse.dropWhile isSpaceB = [] := by
      simpa using congrArg List.reverse h
    have hall2 : ∀ x ∈ (s.data.dropWhile isSpaceB).reverse, isSpaceB x :=
      List.dropWhile_eq_nil_iff.mp h2
    have hall3 : ∀ x ∈ s.data.dropWhile isSpaceB, isSpaceB x := by
      intro x hx
      exact hall2 x (List.mem_reverse.mpr hx)
    have := List.takeWhile_append_dropWhile (p := isSpaceB) (l := s.data)
    rw [← this] at hc
    rcases List.mem_append.mp hc with hc | hc
    · exact List.mem_takeWhile_imp hc
    · exact hall3 c hc
  · intro h
    have h1 : s.data.dropWhile isSpaceB = [] :=
      List.dropWhile_eq_nil_iff.mpr h
    simp [h1]

/-- If the joined buffer strips to empty, every buffered line does. -/
theorem pyStrip_joinNl_blank :
    ∀ ls : List String, pyStrip (joinNl ls) = "" → ∀ l ∈ ls, pyStrip l = "" := by
  intro ls
  induction ls with
  | nil => intro _ l hl; simp at hl
  | cons s rest ih =>
    intro h l hl
    cases rest with
    | nil =>
      simp only [List.mem_singleton] at hl
      subst hl
      simpa [joinNl] using h
    | cons r rest2 =>
      have hj : joinNl (s :: r :: rest2) = s ++ "\n" ++ joinNl (r :: rest2) := rfl
      rw [hj] at h
      rw [pyStrip_eq_empty_iff] at h
      simp only [String.data_append] at h
      rcases List.mem_cons.mp hl with hl | hl
      · subst hl
        rw [pyStrip_eq_empty_iff]
        intro c hc
        exact h c (by simp [hc])
      · refine ih ?_ l hl
        rw [pyStrip_eq_empty_iff]
        intro c hc
        exact h c (by simp [hc])

/-- The length of a Python slice `lines[a:b]` with `b ≤ len(lines)`. -/
theorem slice_length (l : List String) (a b : Nat) (h3 : b ≤ l.length) :
    (slice l a b).length = b - a := by
  simp [slice]
  omega

/-- Elements of a Python slice, via `getD`. -/
theorem slice_getD (l : List String) (a b j : Nat) (h1 : a ≤ j) (h2 : j < b)
    (_h3 : b ≤ l.length) :
    (slice l a b).getD (j - a) "" = l.getD j "" := by
  rw [List.getD_eq_getElem?_getD, List.getD_eq_getElem?_getD]
  have he : (slice l a b)[j - a]? = l[j]? := by
    rw [slice, List.getElem?_take, if_pos (by omega), List.getElem?_drop]
    congr 1
    omega
  rw [he]



/-- Loop-invariant lemma for the splitter that also identifies each
iteration's line as the indexed line of the section. -/
theorem splitLoop_inv_lines (n : Nat) (src hd : String) (lv : Nat)
    (base : Nat) (mS ov : Int) (sl : List String)
    (Inv : Nat → SplitSt → Prop)
    (step : ∀ i st, i < sl.length → Inv i st →
      Inv (i + 1) (splitStep n src hd lv base mS ov i (sl.getD i "") st)) :
    ∀ rest i st, rest = sl.drop i → Inv i st →
      Inv (i + rest.length) (splitLoop n src hd lv base mS ov i rest st) := by
  intro rest
  induction rest with
  | nil => intro i st _ h; simpa [splitLoop] using h
  | cons line rest ih =>
    intro i st hdrop h
    have hhead : sl[i]? = some line := by
      rw [← List.head?_drop, ← hdrop]
      rfl
    have hlt : i < sl.length := by
      rcases List.getElem?_eq_some.mp hhead with ⟨hl, _⟩
      exact hl
    have hgd : sl.getD i "" = line := by
      rw [List.getD_eq_getElem?_getD, hhead]
      rfl
    have htail : rest = sl.drop (i + 1) := by
      rw [← List.tail_drop, ← hdrop]
      rfl
    have h2 := ih (i + 1) (splitStep n src hd lv base mS ov i line st) htail
      (by rw [← hgd]; exact step i st hlt h)
    have e : i + (line :: rest).length = i + 1 + rest.length := by
      simp only [List.length_cons]
      omega
    rw [e]
    exact h2



@[simp] theorem mkChunk_content (c s h : String) (l : Nat) (a b : Int) :
    (mkChunk c s h l a b).content = c := rfl
@[simp] theorem mkChunk_source (c s h : String) (l : Nat) (a b : Int) :
    (mkChunk c s h l a b).source = s := rfl
@[simp] theorem mkChunk_heading (c s h : String) (l : Nat) (a b : Int) :
    (mkChunk c s h l a b).heading = h := rfl
@[simp] theorem mkChunk_heading_level (c s h : String) (l : Nat) (a b : Int) :
    (mkChunk c s h l a b).heading_level = l := rfl
@[simp] theorem mkChunk_start_line (c s h : String) (l : Nat) (a b : Int) :
    (mkChunk c s h l a b).start_line = a := rfl
@[simp] theorem mkChunk_end_line (c s h : String) (l : Nat) (a b : Int) :
    (mkChunk c s h l a b).end_line = b := rfl

/-- Every chunk of a section carries the section's heading and level. -/
theorem emitSection_heading (lines : List String) (src : String)
    (mS ov : Int) (s : Sect) :
    ∀ c ∈ emitSection lines src mS ov s,
      c.heading = s.heading ∧ c.heading_level = s.level := by
  have hsplit : ∀ c ∈ splitLargeSection (slice lines s.start s.stop) src
      s.heading s.level s.start mS ov,
      c.heading = s.heading ∧ c.heading_level = s.level := by
    have := splitLoop_inv (slice lines s.start s.stop).length src s.heading
      s.level s.start mS ov
      (fun _ st => ∀ c ∈ st.chunks, c.heading = s.heading ∧
        c.heading_level = s.level)
      (fun i line st h => by
        intro c hc
        simp only [splitStep] at hc
        split at hc
        · simp only at hc
          split at hc
          · exact h c hc
          · rcases List.mem_append.mp hc with h1 | h1
            · exact h c h1
            · rcases List.mem_singleton.mp h1 with rfl
              exact ⟨rfl, rfl⟩
        · exact h c hc)
      (slice lines s.start s.stop) 0 (SplitSt.mk [] [] 0) (by simp)
    exact this
  intro c hc
  simp only [emitSection] at hc
  split at hc
  · simp at hc
  · split at hc
    · rcases List.mem_singleton.mp hc with rfl
      exact ⟨rfl, rfl⟩
    · exact hsplit c hc

/-- C5 amended: only one direction of the claimed equivalence holds —
every emitted chunk with `heading_level = 0` has `heading = ""` (such
chunks come from the preamble section, all heading-opened sections having
level at least 1).  The converse fails, see
`heading_level_heading_mismatch`: a heading line whose title text is
whitespace-only strips to an empty title with a positive level. -/
theorem chunk_level_zero_heading_empty (text source : String) (mS ov : Int)
    (c : Chunk) (hc : c ∈ chunk_markdown text source mS ov)
    (h0 : c.heading_level = 0) : c.heading = "" := by
  simp only [chunk_markdown, List.mem_flatMap] at hc
  obtain ⟨s, hsmem, hcs⟩ := hc
  have hOK := buildSections_sectOK (pySplitNl text) (pySplitNl_length_pos text)
    s hsmem
  have hf := emitSection_heading _ _ _ _ _ c hcs
  rw [hf.1]
  exact hOK.2.2.1 (by rw [← hf.2]; exact h0)

theorem chunk_level_zero_heading_empty_witness :
    (mkChunk "hi" "" "" 0 1 1).heading = "" := by
  have hm : mkChunk "hi" "" "" 0 1 1 ∈ chunk_markdown "hi" "" 1500 2 := by
    show mkChunk "hi" "" "" 0 1 1 ∈ [mkChunk "hi" "" "" 0 1 1]
    exact List.mem_singleton_self _
  exact chunk_level_zero_heading_empty "hi" "" 1500 2 _ hm rfl



/-- Monotone, bounded start lines for the splitter output. -/
theorem splitLargeSection_mono (sl : List String) (src hd : String)
    (lv : Nat) (base : Nat) (mS ov : Int) :
    List.Chain' (fun a b : Chunk => a.start_line ≤ b.start_line)
      (splitLargeSection sl src hd lv base mS ov) ∧
    ∀ c ∈ splitLargeSection sl src hd lv base mS ov,
      (base : Int) + 1 ≤ c.start_line ∧
      c.start_line ≤ (base : Int) + sl.length := by
  have key := splitLoop_inv sl.length src hd lv base mS ov
    (fun i st =>
      0 ≤ st.curStart ∧ st.curStart + st.cur.length = (i : Int) ∧
      List.Chain' (fun a b : Chunk => a.start_line ≤ b.start_line) st.chunks ∧
      ∀ c ∈ st.chunks, (base : Int) + 1 ≤ c.start_line ∧
        c.start_line ≤ (base : Int) + st.curStart + 1 ∧
        c.start_line ≤ (base : Int) + i)
    (by
      intro i line st hInv
      obtain ⟨h0, hlen, hch, hbd⟩ := hInv
      simp only [splitStep]
      split
      · have hNC : ((if i = sl.length - 1 then ([] : List String)
            else List.drop (max 0 (((st.cur ++ [line]).length : Int) - ov)).toNat
              (st.cur ++ [line])).length : Int) ≤ (st.cur.length : Int) + 1 := by
          split
          · simp only [List.length_nil]
            push_cast
            omega
          · have hd2 : (List.drop
                (max 0 (((st.cur ++ [line]).length : Int) - ov)).toNat
                (st.cur ++ [line])).length ≤ (st.cur ++ [line]).length := by
              rw [List.length_drop]
              omega
            have hd3 : (st.cur ++ [line]).length = st.cur.length + 1 := by
              simp
            push_cast at hd2 hd3 ⊢
            omega
        simp only [List.length_append, List.length_cons, List.length_nil] at hNC ⊢
        by_cases hpe : pyStrip (joinNl (st.cur ++ [line])) = ""
        · simp only [if_pos hpe]
          refine ⟨by push_cast at hlen hNC ⊢; omega,
            by push_cast at hlen hNC ⊢; omega, hch, ?_⟩
          intro c hc
          rcases hbd c hc with ⟨hb1, hb2, hb3⟩
          refine ⟨hb1, by push_cast at hlen hNC ⊢; omega,
            by push_cast at hlen ⊢; omega⟩
        · simp only [if_neg hpe]
          refine ⟨by push_cast at hlen hNC ⊢; omega,
            by push_cast at hlen hNC ⊢; omega, ?_, ?_⟩
          · refine List.chain'_append.mpr ⟨hch, List.chain'_singleton _, ?_⟩
            intro x hx y hy
            simp only [List.head?_cons, Option.mem_def, Option.some.injEq] at hy
            subst hy
            simp only [mkChunk_start_line]
            exact (hbd x (List.mem_of_mem_getLast? hx)).2.1
          · intro c hc
            rcases List.mem_append.mp hc with hc | hc
            · rcases hbd c hc with ⟨hb1, hb2, hb3⟩
              refine ⟨hb1, by push_cast at hlen hNC ⊢; omega,
                by push_cast at hlen ⊢; omega⟩
            · rcases List.mem_singleton.mp hc with rfl
              simp only [mkChunk_start_line]
              refine ⟨by omega, by push_cast at hlen hNC ⊢; omega,
                by push_cast at hlen hNC ⊢; omega⟩
      · refine ⟨h0, by push_cast at hlen ⊢; simp only [List.length_append,
          List.length_cons, List.length_nil]; push_cast; omega, hch, ?_⟩
        intro c hc
        rcases hbd c hc with ⟨hb1, hb2, hb3⟩
        exact ⟨hb1, hb2, by omega⟩)
    sl 0 (SplitSt.mk [] [] 0) (by refine ⟨le_refl _, by simp, by simp, by simp⟩)
  refine ⟨key.2.2.1, ?_⟩
  intro c hc
  rcases key.2.2.2 c hc with ⟨hb1, _, hb3⟩
  refine ⟨hb1, by push_cast at hb3 ⊢; omega⟩



/-- Per-section chunk start-line monotonicity and bounds. -/
theorem emitSection_mono (lines : List String) (src : String) (mS ov : Int)
    (s : Sect) (h1 : s.start < s.stop) (h2 : s.stop ≤ lines.length) :
    List.Chain' (fun a b : Chunk => a.start_line ≤ b.start_line)
      (emitSection lines src mS ov s) ∧
    ∀ c ∈ emitSection lines src mS ov s,
      (s.start : Int) + 1 ≤ c.start_line ∧ c.start_line ≤ (s.stop : Int) := by
  have hsl : (slice lines s.start s.stop).length = s.stop - s.start :=
    slice_length _ _ _ h2
  simp only [emitSection]
  split
  · simp
  · split
    · refine ⟨List.chain'_singleton _, ?_⟩
      intro c hc
      rcases List.mem_singleton.mp hc with rfl
      simp only [mkChunk_start_line]
      exact ⟨le_refl _, by omega⟩
    · have hm := splitLargeSection_mono (slice lines s.start s.stop) src
        s.heading s.level s.start mS ov
      refine ⟨hm.1, ?_⟩
      intro c hc
      rcases hm.2 c hc with ⟨hb1, hb2⟩
      rw [hsl] at hb2
      refine ⟨hb1, by omega⟩

/-- A lower bound on the first section start propagates through a
contiguous section list. -/
theorem sects_all_lb : ∀ (ss : List Sect) (a : Nat),
    List.Chain' (fun x y : Sect => x.stop = y.start) ss →
    (∀ s ∈ ss, s.start < s.stop) →
    (∀ hd, ss.head? = some hd → a ≤ hd.start) →
    ∀ s ∈ ss, a ≤ s.start := by
  intro ss
  induction ss with
  | nil => intro a _ _ _ s hs; simp at hs
  | cons hd tl ih =>
    intro a hch hlt hhd s hs
    have ha : a ≤ hd.start := hhd hd rfl
    rcases List.mem_cons.mp hs with rfl | hs
    · exact ha
    · refine ih a hch.tail
        (fun s' h => hlt s' (List.mem_cons_of_mem _ h)) ?_ s hs
      intro hd2 hh2
      cases tl with
      | nil => simp at hh2
      | cons x t =>
        simp only [List.head?_cons, Option.some.injEq] at hh2
        subst hh2
        have hrel : hd.stop = x.start := (List.chain'_cons.mp hch).1
        have := hlt hd (List.mem_cons_self _ _)
        omega

/-- Chunk start lines are monotone and bounded below across an ordered,
contiguous list of sections. -/
theorem sections_output_mono (lines : List String) (src : String)
    (mS ov : Int) :
    ∀ (ss : List Sect) (lb : Nat),
    (∀ s ∈ ss, s.start < s.stop ∧ s.stop ≤ lines.length) →
    List.Chain' (fun x y : Sect => x.stop = y.start) ss →
    (∀ s ∈ ss, lb ≤ s.start) →
    List.Chain' (fun a b : Chunk => a.start_line ≤ b.start_line)
      (ss.flatMap (emitSection lines src mS ov)) ∧
    ∀ c ∈ ss.flatMap (emitSection lines src mS ov),
      (lb : Int) + 1 ≤ c.start_line := by
  intro ss
  induction ss with
  | nil => intro lb _ _ _; simp
  | cons s tl ih =>
    intro lb hOK hch hlb
    have hs := hOK s (List.mem_cons_self _ _)
    have hblock := emitSection_mono lines src mS ov s hs.1 hs.2
    have htl_lb : ∀ s' ∈ tl, s.stop ≤ s'.start := by
      refine sects_all_lb tl s.stop hch.tail
        (fun s' h => (hOK s' (List.mem_cons_of_mem _ h)).1) ?_
      intro hd2 hh2
      cases tl with
      | nil => simp at hh2
      | cons x t =>
        simp only [List.head?_cons, Option.some.injEq] at hh2
        subst hh2
        exact le_of_eq (List.chain'_cons.mp hch).1
    have hih := ih s.stop (fun s' h => hOK s' (List.mem_cons_of_mem _ h))
      hch.tail htl_lb
    rw [List.flatMap_cons]
    constructor
    · refine List.chain'_append.mpr ⟨hblock.1, hih.1, ?_⟩
      intro x hx y hy
      have hxs := hblock.2 x (List.mem_of_mem_getLast? hx)
      have hys := hih.2 y (List.mem_of_mem_head? hy)
      push_cast at hxs hys ⊢
      omega
    · intro c hc
      have hlbs := hlb s (List.mem_cons_self _ _)
      rcases List.mem_append.mp hc with hc | hc
      · have := (hblock.2 c hc).1
        push_cast at this ⊢
        omega
      · have := hih.2 c hc
        have h1 := hs.1
        push_cast at this ⊢
        omega

/-- C8: within one `chunk_markdown` call the emitted chunks' `start_line`
values are non-decreasing from each chunk to the next. -/
theorem chunk_start_lines_monotone (text source : String) (mS ov : Int) :
    List.Chain' (fun a b : Chunk => a.start_line ≤ b.start_line)
      (chunk_markdown text source mS ov) := by
  have hOK := buildSections_sectOK (pySplitNl text) (pySplitNl_length_pos text)
  have hch := buildSections_chain (pySplitNl text)
  exact (sections_output_mono (pySplitNl text) source mS ov
    (buildSections (pySplitNl text).length (findHeadings (pySplitNl text))) 0
    (fun s hs => ⟨(hOK s hs).1, (hOK s hs).2.1⟩) hch
    (fun s _ => Nat.zero_le _)).1



/-- Every non-blank line of an oversized section lies in the declared
range of some chunk emitted by the splitter. -/
theorem splitLargeSection_cover (sl : List String) (src hd : String)
    (lv : Nat) (base : Nat) (mS ov : Int) :
    ∀ j < sl.length, pyStrip (sl.getD j "") ≠ "" →
      ∃ c ∈ splitLargeSection sl src hd lv base mS ov,
        c.start_line ≤ (base : Int) + j + 1 ∧
        (base : Int) + j + 1 ≤ c.end_line := by
  have key := splitLoop_inv_lines sl.length src hd lv base mS ov sl
    (fun i st =>
      0 ≤ st.curStart ∧ st.curStart ≤ (i : Int) ∧
      st.cur = (sl.take i).drop st.curStart.toNat ∧
      (i = sl.length → st.cur = []) ∧
      ∀ j < i, pyStrip (sl.getD j "") ≠ "" →
        (st.curStart ≤ (j : Int) ∨
         ∃ c ∈ st.chunks, c.start_line ≤ (base : Int) + j + 1 ∧
           (base : Int) + j + 1 ≤ c.end_line))
    (by
      intro i st hi hInv
      obtain ⟨h0, hle, hslice, hemp, hcov⟩ := hInv
      have hk : st.curStart.toNat ≤ i := by omega
      have hgd : sl.getD i "" = sl[i] := List.getD_eq_getElem sl "" hi
      have hcur' : st.cur ++ [sl.getD i ""] =
          (sl.take (i + 1)).drop st.curStart.toNat := by
        calc st.cur ++ [sl.getD i ""]
            = (sl.take i).drop st.curStart.toNat ++ [sl[i]] := by
              rw [hslice, hgd]
          _ = ((sl.take i) ++ [sl[i]]).drop st.curStart.toNat := by
              rw [List.drop_append_of_le_length
                (by rw [List.length_take]; omega)]
          _ = (sl.take (i + 1)).drop st.curStart.toNat := by
              rw [List.take_succ, List.getElem?_eq_getElem hi]
              rfl
      have hmem_cur' : ∀ j, st.curStart.toNat ≤ j → j < i + 1 →
          sl.getD j "" ∈ st.cur ++ [sl.getD i ""] := by
        intro j hkj hji
        rw [hcur']
        have hsome : ((sl.take (i + 1)).drop
            st.curStart.toNat)[j - st.curStart.toNat]? = some (sl.getD j "") := by
          rw [List.getElem?_drop, List.getElem?_take]
          rw [if_pos (by omega)]
          have he : st.curStart.toNat + (j - st.curStart.toNat) = j := by omega
          rw [he, List.getD_eq_getElem sl "" (by omega)]
          exact List.getElem?_eq_getElem (by omega)
        exact List.getElem?_mem hsome
      simp only [splitStep]
      split
      · rename_i hcond
        -- flush branch
        have hlen_cur' : (st.cur ++ [sl.getD i ""]).length =
            i + 1 - st.curStart.toNat := by
          rw [hcur', List.length_drop, List.length_take]
          omega
        by_cases hpe : pyStrip (joinNl (st.cur ++ [sl.getD i ""])) = ""
        · simp only [if_pos hpe]
          refine ⟨?_, ?_, ?_, ?_, ?_⟩
          · -- 0 ≤ newStart
            split
            · simp
              omega
            · rw [List.length_drop, hlen_cur']
              omega
          · split
            · simp
            · rw [List.length_drop, hlen_cur']
              omega
          · -- slice form of the new buffer
            split
            · rename_i hlast
              have h1 : i + 1 = sl.length := by omega
              rw [List.length_nil]
              push_cast
              rw [show ((i : Int) + 1 - 0).toNat = i + 1 by omega]
              rw [h1, List.take_length]
              exact (List.drop_eq_nil_of_le (le_refl _)).symm
            · by_cases hcase : st.curStart.toNat +
                (max 0 (((st.cur ++ [sl.getD i ""]).length : Int) - ov)).toNat ≤ i + 1
              · rw [hcur', List.drop_drop]
                congr 1
                rw [List.length_drop, List.length_drop, List.length_take]
                omega
              · have hlong : (st.cur ++ [sl.getD i ""]).length ≤
                    (max 0 (((st.cur ++ [sl.getD i ""]).length : Int) - ov)).toNat := by
                  rw [hlen_cur']
                  omega
                rw [List.drop_eq_nil_of_le hlong, List.length_nil]
                push_cast
                rw [show ((i : Int) + 1 - 0).toNat = i + 1 by omega]
                exact (List.drop_eq_nil_of_le (by rw [List.length_take]; omega)).symm
          · -- emptiness at the end
            intro hn
            split
            · rfl
            · rename_i hnl
              exact absurd (by omega : i = sl.length - 1) hnl
          · -- coverage
            intro j hj hnb
            by_cases hji : j < i
            · rcases hcov j hji hnb with hc | hc
              · exfalso
                exact hnb (pyStrip_joinNl_blank _ hpe _
                  (hmem_cur' j (by omega) (by omega)))
              · exact Or.inr hc
            · exfalso
              have hji2 : j = i := by omega
              subst hji2
              exact hnb (pyStrip_joinNl_blank _ hpe _
                (hmem_cur' j (by omega) (by omega)))
        · simp only [if_neg hpe]
          refine ⟨?_, ?_, ?_, ?_, ?_⟩
          · split
            · simp
              omega
            · rw [List.length_drop, hlen_cur']
              omega
          · split
            · simp
            · rw [List.length_drop, hlen_cur']
              omega
          · split
            · rename_i hlast
              have h1 : i + 1 = sl.length := by omega
              rw [List.length_nil]
              push_cast
              rw [show ((i : Int) + 1 - 0).toNat = i + 1 by omega]
              rw [h1, List.take_length]
              exact (List.drop_eq_nil_of_le (le_refl _)).symm
            · by_cases hcase : st.curStart.toNat +
                (max 0 (((st.cur ++ [sl.getD i ""]).length : Int) - ov)).toNat ≤ i + 1
              · rw [hcur', List.drop_drop]
                congr 1
                rw [List.length_drop, List.length_drop, List.length_take]
                omega
              · have hlong : (st.cur ++ [sl.getD i ""]).length ≤
                    (max 0 (((st.cur ++ [sl.getD i ""]).length : Int) - ov)).toNat := by
                  rw [hlen_cur']
                  omega
                rw [List.drop_eq_nil_of_le hlong, List.length_nil]
                push_cast
                rw [show ((i : Int) + 1 - 0).toNat = i + 1 by omega]
                exact (List.drop_eq_nil_of_le (by rw [List.length_take]; omega)).symm
          · intro hn
            split
            · rfl
            · rename_i hnl
              exact absurd (by omega : i = sl.length - 1) hnl
          · intro j hj hnb
            by_cases hcs : st.curStart ≤ (j : Int)
            · refine Or.inr ⟨mkChunk (pyStrip (joinNl (st.cur ++ [sl.getD i ""])))
                src hd lv ((base : Int) + st.curStart + 1) ((base : Int) + i + 1),
                List.mem_append.mpr (Or.inr (List.mem_singleton_self _)), ?_, ?_⟩
              · simp only [mkChunk_start_line]
                omega
              · simp only [mkChunk_end_line]
                omega
            · have hji : j < i := by omega
              rcases hcov j hji hnb with hc | hc
              · exact absurd hc hcs
              · obtain ⟨c, hcm, hcb⟩ := hc
                exact Or.inr ⟨c, List.mem_append.mpr (Or.inl hcm), hcb⟩
      · rename_i hncond
        refine ⟨h0, by push_cast; omega, hcur', ?_, ?_⟩
        · intro hn
          exact absurd (by omega : i = sl.length - 1) (not_or.mp hncond).2
        · intro j hj hnb
          by_cases hji : j < i
          · exact hcov j hji hnb
          · have hji2 : j = i := by omega
            subst hji2
            exact Or.inl hle)
    sl 0 (SplitSt.mk [] [] 0) rfl (by
      refine ⟨le_refl _, by simp, by simp, ?_, by omega⟩
      intro h
      rfl)
  intro j hj hnb
  obtain ⟨hf0, hfle, hfslice, hfemp, hfcov⟩ := key
  have hcur_nil := hfemp (by omega)
  rw [hcur_nil] at hfslice
  have hlenz := congrArg List.length hfslice
  rw [List.length_drop, List.length_take, List.length_nil] at hlenz
  rcases hfcov j (by omega) hnb with hc | hc
  · exfalso
    have : sl.length ≤ (splitLoop sl.length src hd lv base mS ov 0 sl
        (SplitSt.mk [] [] 0)).curStart.toNat := by omega
    omega
  · exact hc



/-- Every non-blank line of a section lies in some emitted chunk's
declared range (a dropped section consists of blank lines only). -/
theorem emitSection_cover (lines : List String) (src : String) (mS ov : Int)
    (s : Sect) (h1 : s.start < s.stop) (h2 : s.stop ≤ lines.length) :
    ∀ j, s.start ≤ j → j < s.stop → pyStrip (lines.getD j "") ≠ "" →
      ∃ c ∈ emitSection lines src mS ov s,
        c.start_line ≤ (j : Int) + 1 ∧ (j : Int) + 1 ≤ c.end_line := by
  intro j hj1 hj2 hnb
  have hsl : (slice lines s.start s.stop).length = s.stop - s.start :=
    slice_length _ _ _ h2
  have hjl : (slice lines s.start s.stop).getD (j - s.start) "" =
      lines.getD j "" := slice_getD _ _ _ _ hj1 hj2 h2
  have hidx : j - s.start < (slice lines s.start s.stop).length := by
    rw [hsl]
    omega
  simp only [emitSection]
  split
  · rename_i hskip
    exfalso
    have hmem : lines.getD j "" ∈ slice lines s.start s.stop := by
      rw [← hjl, List.getD_eq_getElem _ "" hidx]
      exact List.getElem_mem hidx
    exact hnb (pyStrip_joinNl_blank _ hskip _ hmem)
  · split
    · refine ⟨_, List.mem_singleton_self _, ?_, ?_⟩
      · simp only [mkChunk_start_line]
        omega
      · simp only [mkChunk_end_line]
        omega
    · obtain ⟨c, hcm, hb1, hb2⟩ := splitLargeSection_cover
        (slice lines s.start s.stop) src s.heading s.level s.start mS ov
        (j - s.start) hidx (by rw [hjl]; exact hnb)
      refine ⟨c, hcm, by omega, by omega⟩

/-- C6 amended: every non-blank line of the input lies within at least
one emitted chunk's declared line range. -/
theorem chunk_line_coverage (text source : String) (mS ov : Int) (j : Nat)
    (hj : j < (pySplitNl text).length)
    (hnb : pyStrip ((pySplitNl text).getD j "") ≠ "") :
    ∃ c ∈ chunk_markdown text source mS ov,
      c.start_line ≤ (j : Int) + 1 ∧ (j : Int) + 1 ≤ c.end_line := by
  obtain ⟨s, hsm, hs1, hs2⟩ := buildSections_cover (pySplitNl text) j hj
  have hOK := buildSections_sectOK (pySplitNl text) (pySplitNl_length_pos text)
    s hsm
  obtain ⟨c, hcm, hb⟩ := emitSection_cover (pySplitNl text) source mS ov s
    hOK.1 hOK.2.1 j hs1 hs2 hnb
  refine ⟨c, ?_, hb⟩
  simp only [chunk_markdown, List.mem_flatMap]
  exact ⟨s, hsm, hcm⟩

/-- Witness for the amended C6 at a concrete document and line. -/
theorem chunk_line_coverage_witness :
    0 < (pySplitNl "hi").length ∧
    pyStrip ((pySplitNl "hi").getD 0 "") ≠ "" ∧
    ∃ c ∈ chunk_markdown "hi" "" 1500 2,
      c.start_line ≤ ((0 : Nat) : Int) + 1 ∧
      ((0 : Nat) : Int) + 1 ≤ c.end_line :=
  ⟨by decide, by decide, chunk_line_coverage "hi" "" 1500 2 0
    (by decide) (by decide)⟩



/-- Every splitter chunk ends at a blank line of the section or at the
section's last line. -/
theorem splitLargeSection_flush_boundary (sl : List String) (src hd : String)
    (lv : Nat) (base : Nat) (mS ov : Int) :
    ∀ c ∈ splitLargeSection sl src hd lv base mS ov,
      (∃ i < sl.length, pyStrip (sl.getD i "") = "" ∧
        c.end_line = (base : Int) + i + 1) ∨
      c.end_line = (base : Int) + sl.length := by
  have key := splitLoop_inv_lines sl.length src hd lv base mS ov sl
    (fun _ st => ∀ c ∈ st.chunks,
      (∃ i < sl.length, pyStrip (sl.getD i "") = "" ∧
        c.end_line = (base : Int) + i + 1) ∨
      c.end_line = (base : Int) + sl.length)
    (by
      intro i st hi hInv
      intro c hc
      simp only [splitStep] at hc
      split at hc
      · rename_i hcond
        simp only at hc
        split at hc
        · exact hInv c hc
        · rcases List.mem_append.mp hc with hcm | hcm
          · exact hInv c hcm
          · rcases List.mem_singleton.mp hcm with rfl
            simp only [mkChunk_end_line]
            rcases hcond with ⟨_, hblank, _⟩ | hlast
            · exact Or.inl ⟨i, hi, hblank, rfl⟩
            · right
              omega
      · exact hInv c hc)
    sl 0 (SplitSt.mk [] [] 0) rfl (by simp)
  exact key

/-- Every chunk of a section either fits the size bound or ends at a
paragraph boundary or at the section boundary. -/
theorem emitSection_size_or_boundary (lines : List String) (src : String)
    (mS ov : Int) (s : Sect) (hOK : SectOK lines s) :
    ∀ c ∈ emitSection lines src mS ov s,
      (c.content.length : Int) ≤ mS ∨
      pyStrip (lines.getD (c.end_line.toNat - 1) "") = "" ∨
      c.end_line = (lines.length : Int) ∨
      (headingMatch (lines.getD c.end_line.toNat "")).isSome := by
  obtain ⟨h1, h2, _, hstop⟩ := hOK
  have hsl : (slice lines s.start s.stop).length = s.stop - s.start :=
    slice_length _ _ _ h2
  intro c hc
  simp only [emitSection] at hc
  split at hc
  · simp at hc
  · split at hc
    · rename_i hsz
      rcases List.mem_singleton.mp hc with rfl
      left
      simpa using hsz
    · rcases splitLargeSection_flush_boundary _ _ _ _ _ _ _ c hc with
        ⟨i, hi, hblank, hend⟩ | hend
      · right
        left
        have hi2 : i < s.stop - s.start := by rw [← hsl]; exact hi
        have htn : c.end_line.toNat - 1 = s.start + i := by
          rw [hend]
          omega
        have hget := slice_getD lines s.start s.stop (s.start + i)
          (by omega) (by omega) h2
        rw [show s.start + i - s.start = i from by omega] at hget
        rw [htn, ← hget]
        exact hblank
      · have hend2 : c.end_line = (s.stop : Int) := by
          rw [hend, hsl]
          omega
        rcases hstop with hstop | hstop
        · right; right; left
          rw [hend2, hstop]
        · right; right; right
          rw [hend2, Int.toNat_natCast]
          exact hstop

/-- C3 amended: the size bound is soft.  Splits occur only at blank-line
paragraph boundaries or at section ends, never mid-paragraph, so every
emitted chunk either has trimmed content within `max_chunk_size`, or its
final line (line `end_line` of the document, before trimming) is blank, or
it abuts a section boundary: the next document line is a heading line, or
the chunk runs to the last line of the document.  An oversized chunk is
therefore not necessarily a single over-long line. -/
theorem chunk_size_or_boundary (text source : String) (mS ov : Int)
    (c : Chunk) (hc : c ∈ chunk_markdown text source mS ov) :
    (c.content.length : Int) ≤ mS ∨
    pyStrip ((pySplitNl text).getD (c.end_line.toNat - 1) "") = "" ∨
    c.end_line = ((pySplitNl text).length : Int) ∨
    (headingMatch ((pySplitNl text).getD c.end_line.toNat "")).isSome := by
  simp only [chunk_markdown, List.mem_flatMap] at hc
  obtain ⟨s, hsm, hcs⟩ := hc
  exact emitSection_size_or_boundary (pySplitNl text) source mS ov s
    (buildSections_sectOK (pySplitNl text) (pySplitNl_length_pos text) s hsm)
    c hcs

/-- Witness for the amended C3 at a concrete document. -/
theorem chunk_size_or_boundary_witness :
    ((mkChunk "hi" "" "" 0 1 1).content.length : Int) ≤ 1500 ∨
    pyStrip ((pySplitNl "hi").getD
      ((mkChunk "hi" "" "" 0 1 1).end_line.toNat - 1) "") = "" ∨
    (mkChunk "hi" "" "" 0 1 1).end_line = ((pySplitNl "hi").length : Int) ∨
    (headingMatch ((pySplitNl "hi").getD
      (mkChunk "hi" "" "" 0 1 1).end_line.toNat "")).isSome := by
  have hm : mkChunk "hi" "" "" 0 1 1 ∈ chunk_markdown "hi" "" 1500 2 := by
    show mkChunk "hi" "" "" 0 1 1 ∈ [mkChunk "hi" "" "" 0 1 1]
    exact List.mem_singleton_self _
  exact chunk_size_or_boundary "hi" "" 1500 2 _ hm


end MemSearch
